import Mathlib

/-!
Verification of the bit-field codec in `src/arch/bit_range_ops.h`.

Machine words of width `W` are modelled as natural numbers below `2^W`; every
C++ operation whose result can exceed `W` bits truncates explicitly with
`% 2^W`.  Pointer-based code is modelled with an explicit memory function
`mem : Nat → Nat` and an index.
-/

set_option maxHeartbeats 1000000
set_option linter.unusedVariables false

namespace ML

/-- `shrd_emulated(low, high, bits)` (bit_range_ops.h lines 35-46):
`low >>= bits; high <<= (TBITS - bits); return low | high;` with `TBITS = W`. -/
def shrd_emulated (W low high bits : Nat) : Nat :=
  (low >>> bits) ||| ((high <<< (W - bits)) % 2^W)

/-- `shrd(low, high, bits)` (bit_range_ops.h lines 50-65, the `JML_INTEL_ISA`
variant): guard `if (bits > TBITS) return 0;`, then the x86 `shrd`
instruction, which right-shifts the double word `high:low` by the count
taken modulo the operand width and keeps the low `W` bits. -/
def shrd (W low high bits : Nat) : Nat :=
  if W < bits then 0
  else ((high * 2^W + low) >>> (bits % W)) % 2^W

/-- machine evaluation of `(Data(1) << bits) - 1` at word width `W`
(the mask built by `extract_bit_range` and `set_bits`); the subtraction
wraps modulo `2^W` as C++ unsigned arithmetic does. -/
def mask (W bits : Nat) : Nat :=
  (((1 <<< bits) % 2^W) + (2^W - 1)) % 2^W

/-- pointer variant `extract_bit_range(const Data *p, size_t bit, shift_t bits)`
(bit_range_ops.h lines 102-119): `p0 = p[0]`, `p1 = p[1]`. -/
def extract_bit_range_ptr (W p0 p1 bit bits : Nat) : Nat :=
  let result := if W < bit + bits then shrd W p0 p1 bit else p0 >>> bit
  ((result * (if bits ≠ 0 then 1 else 0)) % 2^W) &&& mask W bits

/-- pure variant `extract_bit_range(Data p0, Data p1, size_t bit, shift_t bits)`
(bit_range_ops.h lines 122-134). -/
def extract_bit_range (W p0 p1 bit bits : Nat) : Nat :=
  if bits = 0 then 0
  else ((shrd W p0 p1 bit * (if bits ≠ 0 then 1 else 0)) % 2^W) &&& mask W bits

/-- `set_bits(in, val, bit, bits)` (bit_range_ops.h lines 139-156):
`mask = ((1 << bits) - 1) << bit; val <<= bit;
return (in & ~mask) | (val & mask);` where `~` complements within `W` bits. -/
def set_bits (W inp val bit bits : Nat) : Nat :=
  let m := (mask W bits <<< bit) % 2^W
  let v := (val <<< bit) % 2^W
  (inp &&& ((2^W - 1) ^^^ m)) ||| (v &&& m)

/-- `set_bit_range(Data *p, Data val, shift_t bit, shift_t bits)`
(bit_range_ops.h lines 158-182) acting on the two-word window
`(p[0], p[1])` (the written word and its trailing padding word). -/
def set_bit_range (W p0 p1 val bit bits : Nat) : Nat × Nat :=
  if bits = 0 then (p0, p1)
  else
    let bits0 := min bits (W - bit)
    let bits1 := bits - bits0
    let q0 := set_bits W p0 val bit bits0
    let q1 := if bits1 ≠ 0 then set_bits W p1 (val >>> bits0) 0 bits1 else p1
    (q0, q1)

/-- `sign_extend(raw, sign_bit)` (bit_range_ops.h lines 192-198) on a signed
type of width `W`, values taken as two's-complement bit patterns:
`sign = (raw & (1 << sign_bit)) != 0; new_bits = T(-sign) << sign_bit;
return raw | new_bits;`. -/
def sign_extend (W raw sign_bit : Nat) : Nat :=
  let sign : Nat := if raw &&& ((1 <<< sign_bit) % 2^W) ≠ 0 then 1 else 0
  let new_bits := (((2^W - sign) % 2^W) <<< sign_bit) % 2^W
  raw ||| new_bits

/-- `fixup_extract` overload for a signed destination of width `W`
(bit_range_ops.h lines 218-221): `return sign_extend(e, bits);`.
Note the field width `bits` itself is passed as the bit index tested. -/
def fixup_extract_signed (W e bits : Nat) : Nat :=
  sign_extend W e bits

/-- two's-complement reading of a `W`-bit pattern, i.e. the numeric value a
signed destination of width `W` holding that pattern denotes. -/
def toSigned (W v : Nat) : Int :=
  if v < 2^(W-1) then (v : Int) else (v : Int) - 2^W

/-- `Simple_Mem_Buffer` (bit_range_ops.h lines 243-257): a bare pointer,
modelled as an index into `mem`. -/
structure Simple_Mem_Buffer where
  idx : Nat
deriving DecidableEq

/-- `Simple_Mem_Buffer::curr()`: `data[0]`. -/
def Simple_Mem_Buffer.curr (mem : Nat → Nat) (s : Simple_Mem_Buffer) : Nat :=
  mem s.idx

/-- `Simple_Mem_Buffer::next()`: `data[1]`. -/
def Simple_Mem_Buffer.next (mem : Nat → Nat) (s : Simple_Mem_Buffer) : Nat :=
  mem (s.idx + 1)

/-- `Simple_Mem_Buffer::operator+=`: `data += offset`. -/
def Simple_Mem_Buffer.addAssign (s : Simple_Mem_Buffer) (k : Nat) :
    Simple_Mem_Buffer :=
  ⟨s.idx + k⟩

/-- `Buffered_Mem_Buffer` (bit_range_ops.h lines 259-287): a pointer plus the
two cached words `b0`, `b1`. -/
structure Buffered_Mem_Buffer where
  idx : Nat
  b0 : Nat
  b1 : Nat
deriving DecidableEq

/-- `Buffered_Mem_Buffer` constructor: `b0 = data[0]; b1 = data[1];`. -/
def Buffered_Mem_Buffer.init (mem : Nat → Nat) (idx : Nat) :
    Buffered_Mem_Buffer :=
  ⟨idx, mem idx, mem (idx + 1)⟩

/-- `Buffered_Mem_Buffer::curr()`: returns the cached `b0`. -/
def Buffered_Mem_Buffer.curr (s : Buffered_Mem_Buffer) : Nat := s.b0

/-- `Buffered_Mem_Buffer::next()`: returns the cached `b1`. -/
def Buffered_Mem_Buffer.next (s : Buffered_Mem_Buffer) : Nat := s.b1

/-- `Buffered_Mem_Buffer::operator+=(offset)` (lines 271-276): advance the
pointer first, then refresh the cache
(`b0 = offset==0 ? b0 : (offset==1 ? b1 : data[0])`,
`b1 = offset==0 ? b1 : data[1]`). -/
def Buffered_Mem_Buffer.addAssign (mem : Nat → Nat) (s : Buffered_Mem_Buffer)
    (k : Nat) : Buffered_Mem_Buffer :=
  let idx := s.idx + k
  { idx := idx
    b0 := if k = 0 then s.b0 else if k = 1 then s.b1 else mem idx
    b1 := if k = 0 then s.b1 else mem (idx + 1) }

/-- `Buffered_Mem_Buffer::operator++(int)` (lines 278-282):
`b0 = b1; b1 = data[1];` without moving the pointer. -/
def Buffered_Mem_Buffer.postInc (mem : Nat → Nat) (s : Buffered_Mem_Buffer) :
    Buffered_Mem_Buffer :=
  { idx := s.idx, b0 := s.b1, b1 := mem (s.idx + 1) }

/-- `Bit_Buffer<Data, Simple_Mem_Buffer<Data>>` state (bit_range_ops.h lines
294-319): the buffer position and the sub-word bit offset. -/
structure Bit_Buffer where
  idx : Nat
  bit_ofs : Nat
deriving DecidableEq

/-- `Bit_Buffer::advance(bits)` (lines 309-314):
`bit_ofs += bits; data += bit_ofs / W; bit_ofs %= W;`. -/
def Bit_Buffer.advance (W : Nat) (s : Bit_Buffer) (bits : Nat) : Bit_Buffer :=
  let o := s.bit_ofs + bits
  ⟨s.idx + o / W, o % W⟩

/-- `Bit_Buffer::extract(bits)` (lines 301-307): extract from
`(curr(), next())` at `bit_ofs`, then advance; returns the value and the
updated cursor. -/
def Bit_Buffer.extract (W : Nat) (mem : Nat → Nat) (s : Bit_Buffer)
    (bits : Nat) : Nat × Bit_Buffer :=
  (extract_bit_range W (mem s.idx) (mem (s.idx + 1)) s.bit_ofs bits,
    s.advance W bits)

/-- streaming extraction of a list of field widths through the bit cursor. -/
def streamExtracts (W : Nat) (mem : Nat → Nat) (s : Bit_Buffer) :
    List Nat → List Nat
  | [] => []
  | w :: ws =>
    (s.extract W mem w).1 :: streamExtracts W mem (s.extract W mem w).2 ws

/-- direct extraction of a list of field widths by independent
`extract_bit_range` calls at accumulated cumulative bit offsets. -/
def directExtracts (W : Nat) (mem : Nat → Nat) : Nat → List Nat → List Nat
  | _, [] => []
  | b, w :: ws =>
    extract_bit_range W (mem (b / W)) (mem (b / W + 1)) (b % W) w
      :: directExtracts W mem (b + w) ws

/-- model of `Bit_Extractor::extract(T & where, int num_bits)`
(bit_range_ops.h lines 362-367) for a signed destination `T` of the same
width as `Data`: `where = buf.extract(num_bits);` stores the raw cursor
extraction unmodified (the unsigned-to-signed conversion keeps the bit
pattern); the destination then denotes its two's-complement value. -/
def extractToSigned (W : Nat) (mem : Nat → Nat) (s : Bit_Buffer)
    (bits : Nat) : Int :=
  toSigned W (Bit_Buffer.extract W mem s bits).1

/-! ## Basic lemmas -/

theorem shrd_lt {W low high bits : Nat} : shrd W low high bits < 2^W := by
  unfold shrd
  split
  · exact Nat.two_pow_pos W
  · exact Nat.mod_lt _ (Nat.two_pow_pos W)

theorem mask_eq {W bits : Nat} (h : bits ≤ W) : mask W bits = 2^bits - 1 := by
  unfold mask
  rw [Nat.shiftLeft_eq, Nat.one_mul]
  rcases Nat.lt_or_ge bits W with hlt | hge
  · have h1 : 2^bits < 2^W := Nat.pow_lt_pow_right (by omega) hlt
    rw [Nat.mod_eq_of_lt h1]
    have h2 : 2^bits + (2^W - 1) = 2^W + (2^bits - 1) := by
      have e1 : 1 ≤ 2^bits := Nat.one_le_two_pow
      have e2 : 1 ≤ 2^W := Nat.one_le_two_pow
      omega
    rw [h2, Nat.add_mod_left, Nat.mod_eq_of_lt (by omega)]
  · have hbW : bits = W := Nat.le_antisymm h hge
    subst hbW
    have e2 : 1 ≤ 2^bits := Nat.one_le_two_pow
    rw [Nat.mod_self, Nat.zero_add, Nat.mod_eq_of_lt (by omega)]

theorem shrd_eq {W low high bits : Nat} (h : bits < W) :
    shrd W low high bits = ((high * 2^W + low) / 2^bits) % 2^W := by
  unfold shrd
  rw [if_neg (by omega), Nat.mod_eq_of_lt h, Nat.shiftRight_eq_div_pow]

/-- the pure-variant extract equals the `bits`-wide field of the 2W-bit
window `p1:p0` starting at `bit`, right-justified. -/
theorem extract_bit_range_spec {W p0 p1 bit bits : Nat}
    (hbit : bit < W) (hbits : bits ≤ W) :
    extract_bit_range W p0 p1 bit bits = ((p0 + p1 * 2^W) >>> bit) % 2^bits := by
  unfold extract_bit_range
  by_cases h0 : bits = 0
  · subst h0
    simp [Nat.mod_one]
  · rw [if_neg h0, if_pos h0, Nat.mul_one, Nat.mod_eq_of_lt shrd_lt,
      mask_eq hbits, Nat.and_pow_two_sub_one_eq_mod, shrd_eq hbit,
      Nat.mod_mod_of_dvd _ (Nat.pow_dvd_pow 2 hbits),
      Nat.shiftRight_eq_div_pow, Nat.add_comm]

/-- the pointer-variant extract computes the same field. -/
theorem extract_bit_range_ptr_spec {W p0 p1 bit bits : Nat}
    (hp0 : p0 < 2^W) (hbit : bit < W) (hbits : bits ≤ W) :
    extract_bit_range_ptr W p0 p1 bit bits
      = ((p0 + p1 * 2^W) >>> bit) % 2^bits := by
  unfold extract_bit_range_ptr
  by_cases hs : W < bit + bits
  · have h0 : bits ≠ 0 := by omega
    rw [if_pos hs]
    show (shrd W p0 p1 bit * (if bits ≠ 0 then 1 else 0)) % 2^W &&& mask W bits
      = ((p0 + p1 * 2^W) >>> bit) % 2^bits
    rw [if_pos h0, Nat.mul_one, Nat.mod_eq_of_lt shrd_lt,
      mask_eq hbits, Nat.and_pow_two_sub_one_eq_mod, shrd_eq hbit,
      Nat.mod_mod_of_dvd _ (Nat.pow_dvd_pow 2 hbits),
      Nat.shiftRight_eq_div_pow, Nat.add_comm]
  · rw [if_neg hs]
    show (p0 >>> bit * (if bits ≠ 0 then 1 else 0)) % 2^W &&& mask W bits
      = ((p0 + p1 * 2^W) >>> bit) % 2^bits
    by_cases h0 : bits = 0
    · subst h0
      simp [mask_eq (Nat.zero_le W), Nat.mod_one]
    · have hle : p0 >>> bit ≤ p0 := by
        rw [Nat.shiftRight_eq_div_pow]
        exact Nat.div_le_self _ _
      rw [if_pos h0, Nat.mul_one, Nat.mod_eq_of_lt (Nat.lt_of_le_of_lt hle hp0),
        mask_eq hbits, Nat.and_pow_two_sub_one_eq_mod]
      have hWsplit : 2^W = 2^bit * 2^(W - bit) := by
        rw [← Nat.pow_add]
        congr 1
        omega
      have hsplit : p1 * 2^W = 2^bit * (p1 * 2^(W - bit)) := by
        rw [hWsplit]
        ring
      rw [Nat.shiftRight_eq_div_pow, Nat.shiftRight_eq_div_pow, hsplit,
        Nat.add_comm p0, Nat.mul_add_div (Nat.two_pow_pos bit), Nat.add_comm]
      have hsplit2 : p1 * 2^(W - bit) = p1 * 2^(W - bit - bits) * 2^bits := by
        rw [Nat.mul_assoc, ← Nat.pow_add]
        congr 2
        omega
      rw [hsplit2, Nat.add_mul_mod_self_right]

/-- bit view of the two-word window `q1:q0`. -/
theorem window_testBit {W q0 : Nat} (h0 : q0 < 2^W) (q1 i : Nat) :
    (q0 + q1 * 2^W).testBit i =
      if i < W then q0.testBit i else q1.testBit (i - W) := by
  rcases Nat.lt_or_ge i W with hi | hi
  · rw [if_pos hi, Nat.testBit_to_div_mod, Nat.testBit_to_div_mod]
    have hW : (2:Nat)^W = 2^i * 2^(W - i) := by
      rw [← Nat.pow_add]
      congr 1
      omega
    have h1 : q0 + q1 * 2^W = 2^i * (q1 * 2^(W - i)) + q0 := by
      rw [hW]
      ring
    rw [h1, Nat.mul_add_div (Nat.two_pow_pos i)]
    have h2 : q1 * 2^(W - i) = q1 * 2^(W - i - 1) * 2 := by
      have h3 : (2:Nat)^(W - i) = 2^(W - i - 1) * 2 := by
        rw [← Nat.pow_succ]
        congr 1
        omega
      rw [h3]
      ring
    rw [h2, Nat.add_comm, Nat.add_mul_mod_self_right]
  · rw [if_neg (Nat.not_lt.mpr hi), Nat.testBit_to_div_mod,
      Nat.testBit_to_div_mod]
    have hW : (2:Nat)^i = 2^W * 2^(i - W) := by
      rw [← Nat.pow_add]
      congr 1
      omega
    rw [hW, ← Nat.div_div_eq_div_mul, Nat.mul_comm q1, Nat.add_comm q0,
      Nat.mul_add_div (Nat.two_pow_pos W), Nat.div_eq_of_lt h0, Nat.add_zero]

/-- adding a value below `2^k` to a multiple of `2^k` is a bitwise or. -/
theorem mul_two_pow_lor_eq_add {k a b : Nat} (h : a < 2^k) :
    (b * 2^k) ||| a = b * 2^k + a := by
  apply Nat.eq_of_testBit_eq
  intro i
  rw [Nat.testBit_or, Nat.add_comm, window_testBit h b i]
  rcases Nat.lt_or_ge i k with hi | hi
  · rw [if_pos hi]
    have hb : (b * 2^k).testBit i = false := by
      rw [← Nat.shiftLeft_eq, Nat.testBit_shiftLeft]
      simp
      omega
    simp [hb]
  · rw [if_neg (Nat.not_lt.mpr hi)]
    have ha : a.testBit i = false :=
      Nat.testBit_lt_two_pow
        (Nat.lt_of_lt_of_le h (Nat.pow_le_pow_right (by omega) hi))
    have hb : (b * 2^k).testBit i = b.testBit (i - k) := by
      rw [← Nat.shiftLeft_eq, Nat.testBit_shiftLeft]
      simp [hi]
    simp [ha, hb]

theorem set_bits_lt {W inp val bit bits : Nat} :
    set_bits W inp val bit bits < 2^W := by
  simp only [set_bits]
  apply Nat.or_lt_two_pow
  · exact Nat.and_lt_two_pow _
      (Nat.xor_lt_two_pow (by have := Nat.two_pow_pos W; omega)
        (Nat.mod_lt _ (Nat.two_pow_pos W)))
  · exact Nat.and_lt_two_pow _ (Nat.mod_lt _ (Nat.two_pow_pos W))

/-- bit-level characterization of `set_bits`: inside the field the written
value's bits appear, outside it the input's bits are untouched. -/
theorem set_bits_testBit {W inp val bit bits : Nat} (hin : inp < 2^W)
    (hb : bits ≤ W) (i : Nat) :
    (set_bits W inp val bit bits).testBit i =
      if bit ≤ i ∧ i < W ∧ i - bit < bits then val.testBit (i - bit)
      else inp.testBit i := by
  have hfar : ∀ hW : W ≤ i, inp.testBit i = false := fun hW =>
    Nat.testBit_lt_two_pow
      (Nat.lt_of_lt_of_le hin (Nat.pow_le_pow_right (by omega) hW))
  simp only [set_bits, mask_eq hb, Nat.testBit_or, Nat.testBit_and,
    Nat.testBit_xor, Nat.testBit_mod_two_pow, Nat.testBit_shiftLeft,
    Nat.testBit_two_pow_sub_one]
  by_cases h1 : i < W
  · by_cases h2 : bit ≤ i
    · by_cases h3 : i - bit < bits
      · simp [h1, h2, h3]
      · simp [h1, h2, h3]
    · simp [h1, h2]
  · simp [h1, hfar (Nat.not_lt.mp h1)]

/-- non-straddling `set_bit_range` writes only the first word. -/
theorem set_bit_range_eq_nostraddle {W p0 p1 val bit bits : Nat}
    (h0 : bits ≠ 0) (hA : bit + bits ≤ W) :
    set_bit_range W p0 p1 val bit bits = (set_bits W p0 val bit bits, p1) := by
  simp only [set_bit_range, if_neg h0]
  have h1 : min bits (W - bit) = bits := by omega
  rw [h1]
  simp

/-- straddling `set_bit_range` splits the value across both words. -/
theorem set_bit_range_eq_straddle {W p0 p1 val bit bits : Nat}
    (hA : W < bit + bits) (hbW : bit ≤ W) :
    set_bit_range W p0 p1 val bit bits
      = (set_bits W p0 val bit (W - bit),
         set_bits W p1 (val >>> (W - bit)) 0 (bits - (W - bit))) := by
  have h0 : bits ≠ 0 := by omega
  simp only [set_bit_range, if_neg h0]
  have h1 : min bits (W - bit) = W - bit := by omega
  rw [h1, if_pos (by omega)]

/-- both words stay below `2^W` after `set_bit_range`. -/
theorem set_bit_range_lt {W p0 p1 : Nat} (val bit bits : Nat)
    (hp0 : p0 < 2^W) (hp1 : p1 < 2^W) :
    (set_bit_range W p0 p1 val bit bits).1 < 2^W ∧
    (set_bit_range W p0 p1 val bit bits).2 < 2^W := by
  simp only [set_bit_range]
  by_cases h0 : bits = 0
  · simp [h0, hp0, hp1]
  · rw [if_neg h0]
    refine ⟨set_bits_lt, ?_⟩
    by_cases h1 : bits - min bits (W - bit) ≠ 0
    · simp only [if_pos h1]
      exact set_bits_lt
    · simp only [if_neg h1]
      exact hp1

/-- bit-level characterization of `set_bit_range` over the two-word window:
the field `[bit, bit+bits)` holds `val`'s bits, everything else is the
original window. -/
theorem set_bit_range_window_testBit {W p0 p1 val bit bits : Nat}
    (hp0 : p0 < 2^W) (hp1 : p1 < 2^W) (hbit : bit < W) (hbits : bits < W)
    (i : Nat) :
    ((set_bit_range W p0 p1 val bit bits).1
        + (set_bit_range W p0 p1 val bit bits).2 * 2^W).testBit i =
      if bit ≤ i ∧ i < bit + bits then val.testBit (i - bit)
      else (p0 + p1 * 2^W).testBit i := by
  by_cases h0 : bits = 0
  · subst h0
    rw [if_neg (by omega)]
    simp [set_bit_range]
  rcases Nat.lt_or_ge W (bit + bits) with hA | hA
  · -- straddling case
    rw [set_bit_range_eq_straddle hA (by omega), window_testBit hp0 p1 i,
      window_testBit (W := W) (set_bits_lt) _ i]
    by_cases hiW : i < W
    · rw [if_pos hiW, if_pos hiW,
        set_bits_testBit hp0 (by omega : W - bit ≤ W) i]
      by_cases hc : bit ≤ i
      · rw [if_pos (by omega), if_pos (by omega : bit ≤ i ∧ i < bit + bits)]
      · rw [if_neg (by omega), if_neg (by omega)]
    · rw [if_neg hiW, if_neg hiW,
        set_bits_testBit hp1 (by omega : bits - (W - bit) ≤ W) (i - W)]
      by_cases hc : i < bit + bits
      · rw [if_pos (by omega), if_pos (by omega : bit ≤ i ∧ i < bit + bits),
          Nat.testBit_shiftRight]
        congr 1
        omega
      · rw [if_neg (by omega), if_neg (by omega)]
  · -- non-straddling case
    rw [set_bit_range_eq_nostraddle h0 hA, window_testBit hp0 p1 i,
      window_testBit (W := W) (set_bits_lt) _ i]
    by_cases hiW : i < W
    · rw [if_pos hiW, if_pos hiW, set_bits_testBit hp0 (by omega) i]
      by_cases hc : bit ≤ i ∧ i < bit + bits
      · rw [if_pos (by omega), if_pos hc]
      · rw [if_neg (by omega), if_neg hc]
    · rw [if_neg hiW, if_neg hiW, if_neg (by omega)]

/-- shifting the window right inside one word: the low `bits` bits come from
`p0` alone when the field does not straddle. -/
theorem window_shiftRight_mod {W p0 p1 bit bits : Nat} (hA : bit + bits ≤ W) :
    ((p0 + p1 * 2^W) >>> bit) % 2^bits = (p0 >>> bit) % 2^bits := by
  have hWsplit : (2:Nat)^W = 2^bit * 2^(W - bit) := by
    rw [← Nat.pow_add]
    congr 1
    omega
  have hsplit : p1 * 2^W = 2^bit * (p1 * 2^(W - bit)) := by
    rw [hWsplit]
    ring
  rw [Nat.shiftRight_eq_div_pow, Nat.shiftRight_eq_div_pow, hsplit,
    Nat.add_comm p0, Nat.mul_add_div (Nat.two_pow_pos bit), Nat.add_comm]
  have hsplit2 : p1 * 2^(W - bit) = p1 * 2^(W - bit - bits) * 2^bits := by
    rw [Nat.mul_assoc, ← Nat.pow_add]
    congr 2
    omega
  rw [hsplit2, Nat.add_mul_mod_self_right]

/-- the portable emulation agrees with the accelerated double shift on every
in-range input. -/
theorem shrd_emulated_eq_shrd {W low high bits : Nat}
    (hlow : low < 2^W) (hbits : bits < W) :
    shrd_emulated W low high bits = shrd W low high bits := by
  have hW : (2:Nat)^W = 2^bits * 2^(W - bits) := by
    rw [← Nat.pow_add]
    congr 1
    omega
  have hdiv : low >>> bits < 2^(W - bits) := by
    rw [Nat.shiftRight_eq_div_pow,
      Nat.div_lt_iff_lt_mul (Nat.two_pow_pos bits)]
    calc low < 2^W := hlow
      _ = 2^(W - bits) * 2^bits := by
          rw [← Nat.pow_add]
          congr 1
          omega
  unfold shrd_emulated
  rw [Nat.shiftLeft_eq, hW, Nat.mul_mod_mul_right, Nat.lor_comm,
    mul_two_pow_lor_eq_add hdiv, shrd_eq hbits]
  have hnum : high * 2^W + low = 2^bits * (high * 2^(W - bits)) + low := by
    rw [hW]
    ring
  rw [hnum, Nat.mul_add_div (Nat.two_pow_pos bits),
    ← Nat.shiftRight_eq_div_pow]
  have hsplit : high * 2^(W - bits)
      = high % 2^bits * 2^(W - bits) + high / 2^bits * 2^W := by
    conv_lhs => rw [← Nat.div_add_mod high (2^bits)]
    rw [hW]
    ring
  have hlt : high % 2^bits * 2^(W - bits) + low >>> bits < 2^W := by
    have h1 : high % 2^bits ≤ 2^bits - 1 := by
      have := Nat.mod_lt high (Nat.two_pow_pos bits)
      omega
    have h2 : high % 2^bits * 2^(W - bits) ≤ (2^bits - 1) * 2^(W - bits) :=
      Nat.mul_le_mul_right _ h1
    have h4 : 1 ≤ (2:Nat)^bits := Nat.one_le_two_pow
    have h3 : (2^bits - 1) * 2^(W - bits) + 2^(W - bits) = 2^W := by
      calc (2^bits - 1) * 2^(W - bits) + 2^(W - bits)
          = (2^bits - 1 + 1) * 2^(W - bits) := by ring
        _ = 2^bits * 2^(W - bits) := by rw [Nat.sub_add_cancel h4]
        _ = 2^W := hW.symm
    omega
  rw [hsplit, Nat.add_right_comm, Nat.add_mul_mod_self_right,
    Nat.mod_eq_of_lt hlt]

/-- C1: for every word width W ∈ {8,16,32,64}, every bitOffset and bits in
[0,W) and every val < 2^bits, writing with `set_bit_range` on the two-word
window (the word written and its trailing padding word) and then calling
`extract_bit_range` at the same (bitOffset, bits) returns val, and every bit
of the window outside the written field is unchanged. -/
theorem C1_roundtrip {W p0 p1 val bit bits : Nat}
    (hW : W = 8 ∨ W = 16 ∨ W = 32 ∨ W = 64)
    (hp0 : p0 < 2^W) (hp1 : p1 < 2^W) (hbit : bit < W) (hbits : bits < W)
    (hval : val < 2^bits) :
    extract_bit_range_ptr W (set_bit_range W p0 p1 val bit bits).1
        (set_bit_range W p0 p1 val bit bits).2 bit bits = val ∧
    ∀ i, i < 2 * W → (i < bit ∨ bit + bits ≤ i) →
      ((set_bit_range W p0 p1 val bit bits).1
          + (set_bit_range W p0 p1 val bit bits).2 * 2^W).testBit i
        = (p0 + p1 * 2^W).testBit i := by
  obtain ⟨hq0, hq1⟩ := set_bit_range_lt val bit bits hp0 hp1
  constructor
  · rw [extract_bit_range_ptr_spec hq0 hbit (Nat.le_of_lt hbits)]
    apply Nat.eq_of_testBit_eq
    intro j
    rw [Nat.testBit_mod_two_pow, Nat.testBit_shiftRight]
    by_cases hj : j < bits
    · rw [set_bit_range_window_testBit hp0 hp1 hbit hbits (bit + j),
        if_pos (by omega)]
      have he : bit + j - bit = j := by omega
      rw [he]
      simp [hj]
    · have hv : val.testBit j = false :=
        Nat.testBit_lt_two_pow
          (Nat.lt_of_lt_of_le hval
            (Nat.pow_le_pow_right (by omega) (by omega)))
      simp [hj, hv]
  · intro i hi2 hout
    rw [set_bit_range_window_testBit hp0 hp1 hbit hbits i, if_neg (by omega)]

/-- C1 witness: W = 8, words (202, 181), val = 5 written at bitOffset 6 with
3 bits (a straddling field). -/
theorem C1_roundtrip_witness :
    extract_bit_range_ptr 8 (set_bit_range 8 202 181 5 6 3).1
        (set_bit_range 8 202 181 5 6 3).2 6 3 = 5 ∧
    ∀ i, i < 2 * 8 → (i < 6 ∨ 6 + 3 ≤ i) →
      ((set_bit_range 8 202 181 5 6 3).1
          + (set_bit_range 8 202 181 5 6 3).2 * 2^8).testBit i
        = (202 + 181 * 2^8).testBit i :=
  C1_roundtrip (Or.inl rfl) (by decide) (by decide) (by decide) (by decide)
    (by decide)

/-- C2: both extract variants return the bits-wide unsigned field starting at
bitOffset inside the 2W-bit value word1:word0, right-justified with every
result bit at position ≥ bits zero; when bitOffset + bits ≤ W the result is
the single right-shift of word0 plus the mask, otherwise it is the
double-word shift primitive masked. -/
theorem C2_extract_field {W p0 p1 bit bits : Nat}
    (hp0 : p0 < 2^W) (hp1 : p1 < 2^W) (hbit : bit < W) (hbits : bits < W) :
    extract_bit_range W p0 p1 bit bits = ((p0 + p1 * 2^W) >>> bit) % 2^bits ∧
    extract_bit_range_ptr W p0 p1 bit bits
      = ((p0 + p1 * 2^W) >>> bit) % 2^bits ∧
    extract_bit_range W p0 p1 bit bits < 2^bits ∧
    (bit + bits ≤ W →
      extract_bit_range_ptr W p0 p1 bit bits
        = (p0 >>> bit) &&& (2^bits - 1)) ∧
    (W < bit + bits →
      extract_bit_range_ptr W p0 p1 bit bits
        = shrd W p0 p1 bit &&& (2^bits - 1)) := by
  have hble := Nat.le_of_lt hbits
  refine ⟨extract_bit_range_spec hbit hble,
    extract_bit_range_ptr_spec hp0 hbit hble, ?_, ?_, ?_⟩
  · rw [extract_bit_range_spec hbit hble]
    exact Nat.mod_lt _ (Nat.two_pow_pos bits)
  · intro hA
    rw [extract_bit_range_ptr_spec hp0 hbit hble,
      Nat.and_pow_two_sub_one_eq_mod, window_shiftRight_mod hA]
  · intro hA
    have h0 : bits ≠ 0 := by omega
    unfold extract_bit_range_ptr
    rw [if_pos hA]
    show (shrd W p0 p1 bit * (if bits ≠ 0 then 1 else 0)) % 2^W
        &&& mask W bits = _
    rw [if_pos h0, Nat.mul_one, Nat.mod_eq_of_lt shrd_lt, mask_eq hble]

/-- C2 witness: the spec's straddling example, W = 16, words
(0xABCD, 0x1234), a 6-bit field at bitOffset 13. -/
theorem C2_extract_field_witness :
    extract_bit_range 16 43981 4660 13 6
      = ((43981 + 4660 * 2^16) >>> 13) % 2^6 ∧
    extract_bit_range_ptr 16 43981 4660 13 6
      = ((43981 + 4660 * 2^16) >>> 13) % 2^6 ∧
    extract_bit_range 16 43981 4660 13 6 < 2^6 ∧
    (13 + 6 ≤ 16 →
      extract_bit_range_ptr 16 43981 4660 13 6
        = (43981 >>> 13) &&& (2^6 - 1)) ∧
    (16 < 13 + 6 →
      extract_bit_range_ptr 16 43981 4660 13 6
        = shrd 16 43981 4660 13 &&& (2^6 - 1)) :=
  C2_extract_field (by decide) (by decide) (by decide) (by decide)

/-- C4: for every word width W ∈ {8,16,32,64}, all W-bit values low and high
and every shift amount bits ∈ [0,W), the emulated and the accelerated shift
primitive return the same value. -/
theorem C4_shrd_equivalence {W low high bits : Nat}
    (hW : W = 8 ∨ W = 16 ∨ W = 32 ∨ W = 64)
    (hlow : low < 2^W) (hhigh : high < 2^W) (hbits : bits < W) :
    shrd_emulated W low high bits = shrd W low high bits :=
  shrd_emulated_eq_shrd hlow hbits

/-- C4 witness: W = 16, low = 0xBEEF, high = 0x1234, bits = 5. -/
theorem C4_shrd_equivalence_witness :
    shrd_emulated 16 48879 4660 5 = shrd 16 48879 4660 5 :=
  C4_shrd_equivalence (Or.inr (Or.inl rfl)) (by decide) (by decide)
    (by decide)

/-- C7: zero-width identity: both extract variants with bits = 0 return 0
for arbitrary word contents and offsets, and `set_bit_range` with bits = 0
leaves the two-word window identical. -/
theorem C7_zero_width (W p0 p1 val bit : Nat) :
    extract_bit_range_ptr W p0 p1 bit 0 = 0 ∧
    extract_bit_range W p0 p1 bit 0 = 0 ∧
    set_bit_range W p0 p1 val bit 0 = (p0, p1) := by
  refine ⟨?_, rfl, rfl⟩
  simp [extract_bit_range_ptr]

/-- C9: at bitOffset 0 with bits = W the pointer extract takes the
zero-offset single-word fast path (the straddle test `bit + bits > W` is
false) and returns word0 in its entirety, for every pair of words. -/
theorem C9_full_word {W p0 p1 : Nat} (hW : 0 < W) (hp0 : p0 < 2^W)
    (hp1 : p1 < 2^W) :
    extract_bit_range_ptr W p0 p1 0 W
        = ((p0 >>> 0) * (if W ≠ 0 then 1 else 0)) % 2^W &&& mask W W ∧
    extract_bit_range_ptr W p0 p1 0 W = p0 := by
  constructor
  · unfold extract_bit_range_ptr
    rw [if_neg (by omega : ¬ W < 0 + W)]
  · unfold extract_bit_range_ptr
    rw [if_neg (by omega : ¬ W < 0 + W)]
    show (p0 >>> 0 * (if W ≠ 0 then 1 else 0)) % 2^W &&& mask W W = p0
    rw [if_pos (by omega), Nat.mul_one, Nat.shiftRight_zero,
      Nat.mod_eq_of_lt hp0, mask_eq (Nat.le_refl W),
      Nat.and_pow_two_sub_one_eq_mod, Nat.mod_eq_of_lt hp0]

/-- C9 witness: W = 8, word0 = 171, word1 = 3. -/
theorem C9_full_word_witness :
    extract_bit_range_ptr 8 171 3 0 8
        = ((171 >>> 0) * (if (8:Nat) ≠ 0 then 1 else 0)) % 2^8 &&& mask 8 8 ∧
    extract_bit_range_ptr 8 171 3 0 8 = 171 :=
  C9_full_word (by decide) (by decide) (by decide)

/-- the cached-buffer invariant: both cached words mirror memory at the
current index. -/
def BufferedInv (mem : Nat → Nat) (s : Buffered_Mem_Buffer) : Prop :=
  s.b0 = mem s.idx ∧ s.b1 = mem (s.idx + 1)

theorem buffered_addAssign_inv (mem : Nat → Nat) (s : Buffered_Mem_Buffer)
    (k : Nat) (h : BufferedInv mem s) :
    BufferedInv mem (s.addAssign mem k) ∧
    (s.addAssign mem k).idx = s.idx + k := by
  obtain ⟨h0, h1⟩ := h
  refine ⟨⟨?_, ?_⟩, rfl⟩
  · show (if k = 0 then s.b0 else if k = 1 then s.b1 else mem (s.idx + k))
      = mem (s.idx + k)
    by_cases hk0 : k = 0
    · subst hk0
      simpa using h0
    by_cases hk1 : k = 1
    · subst hk1
      simpa using h1
    · simp [hk0, hk1]
  · show (if k = 0 then s.b1 else mem (s.idx + k + 1)) = mem (s.idx + k + 1)
    by_cases hk0 : k = 0
    · subst hk0
      simpa using h1
    · simp [hk0]

theorem buffered_foldl_inv (mem : Nat → Nat) (ks : List Nat)
    (s : Buffered_Mem_Buffer) (h : BufferedInv mem s) :
    BufferedInv mem (ks.foldl (Buffered_Mem_Buffer.addAssign mem) s) ∧
    (ks.foldl (Buffered_Mem_Buffer.addAssign mem) s).idx = s.idx + ks.sum := by
  induction ks generalizing s with
  | nil => simpa using h
  | cons k ks ih =>
    rw [List.foldl_cons, List.sum_cons]
    obtain ⟨hinv, hidx⟩ := buffered_addAssign_inv mem s k h
    obtain ⟨hinv2, hidx2⟩ := ih _ hinv
    refine ⟨hinv2, ?_⟩
    rw [hidx2, hidx]
    omega

theorem simple_foldl_idx (start : Nat) (ks : List Nat) :
    (ks.foldl Simple_Mem_Buffer.addAssign ⟨start⟩).idx = start + ks.sum := by
  induction ks generalizing start with
  | nil => simp
  | cons k ks ih =>
    rw [List.foldl_cons, List.sum_cons]
    show (ks.foldl Simple_Mem_Buffer.addAssign ⟨start + k⟩).idx = _
    rw [ih]
    omega

/-- C5: after any finite sequence of non-negative word-count advances, the
Direct (Simple) and Cached (Buffered) strategies built over the same memory
at the same start index report identical curr() and next(), namely the word
at original-index plus the cumulative advance and the word after it. -/
theorem C5_buffer_strategies_equiv (mem : Nat → Nat) (start : Nat)
    (ks : List Nat) :
    Buffered_Mem_Buffer.curr
        (ks.foldl (Buffered_Mem_Buffer.addAssign mem)
          (Buffered_Mem_Buffer.init mem start))
      = Simple_Mem_Buffer.curr mem
          (ks.foldl Simple_Mem_Buffer.addAssign ⟨start⟩) ∧
    Buffered_Mem_Buffer.next
        (ks.foldl (Buffered_Mem_Buffer.addAssign mem)
          (Buffered_Mem_Buffer.init mem start))
      = Simple_Mem_Buffer.next mem
          (ks.foldl Simple_Mem_Buffer.addAssign ⟨start⟩) ∧
    Simple_Mem_Buffer.curr mem (ks.foldl Simple_Mem_Buffer.addAssign ⟨start⟩)
      = mem (start + ks.sum) ∧
    Simple_Mem_Buffer.next mem (ks.foldl Simple_Mem_Buffer.addAssign ⟨start⟩)
      = mem (start + ks.sum + 1) := by
  obtain ⟨⟨h0, h1⟩, hidx⟩ :=
    buffered_foldl_inv mem ks (Buffered_Mem_Buffer.init mem start) ⟨rfl, rfl⟩
  have hs := simple_foldl_idx start ks
  unfold Buffered_Mem_Buffer.curr Buffered_Mem_Buffer.next
    Simple_Mem_Buffer.curr Simple_Mem_Buffer.next
  rw [h0, h1, hidx, hs]
  exact ⟨rfl, rfl, rfl, rfl⟩

theorem bit_advance_norm {W : Nat} (hW : 0 < W) (b w : Nat) :
    Bit_Buffer.advance W ⟨b / W, b % W⟩ w = ⟨(b + w) / W, (b + w) % W⟩ := by
  have hb : W * (b / W) + b % W = b := Nat.div_add_mod b W
  show (⟨b / W + (b % W + w) / W, (b % W + w) % W⟩ : Bit_Buffer) = _
  have h1 : b / W + (b % W + w) / W = (b + w) / W := by
    conv_rhs => rw [← hb]
    rw [Nat.add_assoc, Nat.mul_add_div hW]
  have h2 : (b % W + w) % W = (b + w) % W := by
    conv_rhs => rw [← hb]
    rw [Nat.add_assoc, Nat.mul_add_mod]
  rw [h1, h2]

theorem stream_eq_direct {W : Nat} (hW : 0 < W) (mem : Nat → Nat)
    (ws : List Nat) : ∀ b : Nat,
    streamExtracts W mem ⟨b / W, b % W⟩ ws = directExtracts W mem b ws := by
  induction ws with
  | nil => intro b; rfl
  | cons w ws ih =>
    intro b
    simp only [streamExtracts, directExtracts, Bit_Buffer.extract]
    rw [bit_advance_norm hW, ih (b + w)]

/-- C6: extracting a list of field widths (each in [0,W)) through the
streaming bit cursor, starting at bit offset 0, yields the same values as
direct `extract_bit_range` calls at the accumulated cumulative offsets. -/
theorem C6_streaming_equiv {W : Nat} (mem : Nat → Nat) (ws : List Nat)
    (hW : W = 8 ∨ W = 16 ∨ W = 32 ∨ W = 64) (hws : ∀ w ∈ ws, w < W) :
    streamExtracts W mem ⟨0, 0⟩ ws = directExtracts W mem 0 ws := by
  have h : 0 < W := by rcases hW with h | h | h | h <;> omega
  have h2 := stream_eq_direct h mem ws 0
  rw [Nat.zero_div, Nat.zero_mod] at h2
  exact h2

/-- C6 witness: W = 8 over the memory i ↦ 17 i + 3, widths 3, 7, 6, 5. -/
theorem C6_streaming_equiv_witness :
    streamExtracts 8 (fun i => 17 * i + 3) ⟨0, 0⟩ [3, 7, 6, 5]
      = directExtracts 8 (fun i => 17 * i + 3) 0 [3, 7, 6, 5] :=
  C6_streaming_equiv (fun i => 17 * i + 3) [3, 7, 6, 5] (Or.inl rfl)
    (by decide)

theorem bit_foldl_norm {W : Nat} (hW : 0 < W) (bs : List Nat) : ∀ b : Nat,
    bs.foldl (Bit_Buffer.advance W) ⟨b / W, b % W⟩
      = ⟨(b + bs.sum) / W, (b + bs.sum) % W⟩ := by
  induction bs with
  | nil =>
    intro b
    simp
  | cons k bs ih =>
    intro b
    rw [List.foldl_cons, bit_advance_norm hW, ih (b + k), List.sum_cons]
    rw [Nat.add_assoc]

/-- C8: the cursor's advance keeps the bit offset in [0,W), never decreases
the word index, and after any sequence of advances from (0,0) the state is
exactly (total div W, total mod W). -/
theorem C8_cursor_normalization {W : Nat}
    (hW : W = 8 ∨ W = 16 ∨ W = 32 ∨ W = 64) :
    (∀ (s : Bit_Buffer) (bits : Nat), s.idx ≤ (s.advance W bits).idx) ∧
    (∀ (s : Bit_Buffer) (bits : Nat), (s.advance W bits).bit_ofs < W) ∧
    (∀ bs : List Nat,
      bs.foldl (Bit_Buffer.advance W) ⟨0, 0⟩
        = ⟨bs.sum / W, bs.sum % W⟩) := by
  have h : 0 < W := by rcases hW with h | h | h | h <;> omega
  refine ⟨?_, ?_, ?_⟩
  · intro s bits
    show s.idx ≤ s.idx + (s.bit_ofs + bits) / W
    exact Nat.le_add_right _ _
  · intro s bits
    show (s.bit_ofs + bits) % W < W
    exact Nat.mod_lt _ h
  · intro bs
    have h2 := bit_foldl_norm h bs 0
    rw [Nat.zero_div, Nat.zero_mod, Nat.zero_add] at h2
    exact h2

/-- C8 witness: W = 8, advances 5, 9, 3 end at word 2, bit offset 1. -/
theorem C8_cursor_normalization_witness :
    List.foldl (Bit_Buffer.advance 8) ⟨0, 0⟩ [5, 9, 3] = ⟨2, 1⟩ := by
  have h := (C8_cursor_normalization (Or.inl rfl)).2.2 [5, 9, 3]
  rw [h]
  decide

/-- C10: in any state where the cached next word mirrors memory at index+1
(as construction and operator+= guarantee), operator++(int) keeps the
pointer unchanged and makes both curr() and next() equal the old next(). -/
theorem C10_postInc_behavior (mem : Nat → Nat) (s : Buffered_Mem_Buffer)
    (h1 : s.b1 = mem (s.idx + 1)) :
    (s.postInc mem).idx = s.idx ∧
    Buffered_Mem_Buffer.curr (s.postInc mem) = Buffered_Mem_Buffer.next s ∧
    Buffered_Mem_Buffer.next (s.postInc mem) = Buffered_Mem_Buffer.next s ∧
    Buffered_Mem_Buffer.curr (s.postInc mem)
      = Buffered_Mem_Buffer.next (s.postInc mem) := by
  unfold Buffered_Mem_Buffer.postInc Buffered_Mem_Buffer.curr
    Buffered_Mem_Buffer.next
  exact ⟨rfl, rfl, h1.symm, h1⟩

/-- C10 witness: memory i ↦ i + 10, state reached by construction at 0. -/
theorem C10_postInc_behavior_witness :
    (Buffered_Mem_Buffer.postInc (fun i => i + 10) ⟨0, 10, 11⟩).idx = 0 ∧
    Buffered_Mem_Buffer.curr
        (Buffered_Mem_Buffer.postInc (fun i => i + 10) ⟨0, 10, 11⟩)
      = Buffered_Mem_Buffer.next ⟨0, 10, 11⟩ ∧
    Buffered_Mem_Buffer.next
        (Buffered_Mem_Buffer.postInc (fun i => i + 10) ⟨0, 10, 11⟩)
      = Buffered_Mem_Buffer.next ⟨0, 10, 11⟩ ∧
    Buffered_Mem_Buffer.curr
        (Buffered_Mem_Buffer.postInc (fun i => i + 10) ⟨0, 10, 11⟩)
      = Buffered_Mem_Buffer.next
          (Buffered_Mem_Buffer.postInc (fun i => i + 10) ⟨0, 10, 11⟩) :=
  C10_postInc_behavior (fun i => i + 10) ⟨0, 10, 11⟩ rfl

/-- C3: evaluation of the signed-extraction path at the claim's own example.
A 5-bit field holding 0b10101 read through the cursor into a signed 32-bit
destination stores the raw value 21 — not −11 — because
`Bit_Extractor::extract` never applies `fixup_extract`; moreover
`fixup_extract(21, 5)` as written tests bit 5 (not bit 4 = bits−1) and so
also returns 21; `sign_extend` with sign bit 4 does produce the pattern
whose two's-complement value is −11. -/
theorem C3_sign_extension_code_bug :
    extractToSigned 32 (fun i => if i = 0 then 21 else 0) ⟨0, 0⟩ 5 = 21 ∧
    extractToSigned 32 (fun i => if i = 0 then 21 else 0) ⟨0, 0⟩ 5 ≠ -11 ∧
    fixup_extract_signed 32 21 5 = 21 ∧
    sign_extend 32 21 4 = 4294967285 ∧
    toSigned 32 4294967285 = -11 := by
  refine ⟨?_, ?_, ?_, ?_, ?_⟩ <;> decide

end ML
